import Mathlib

/-!
Shallow embedding of the scan engine of a process-memory scanner
(core files: src/core/scan.rs and src/core/mem.rs), together with
theorems settling the specification claims about it.

Machine integers (u64/usize/i64/...) are modelled as Nat/Int; byte
buffers (Vec of u8) as List Nat with entries < 256 where it matters;
fallible operations return Option/Except; the OS read/write primitives
are abstracted as explicit function parameters.
-/

/-- Abbreviation for String usable inside the ValueType namespace, where
the plain name String denotes the ValueType constructor. -/
abbrev Str := String

deriving instance DecidableEq for Except

/-- MemoryRegionPerms from src/core/mem.rs. -/
inductive MemoryRegionPerms
  | Read
  | Write
deriving DecidableEq, Repr

/-- MemoryError from src/core/mem.rs; the i32 OS error code is an Int. -/
inductive MemoryError
  | NoPermission (code : Int)
  | MemRead (code : Int)
  | MemWrite (code : Int)
  | ProcessAttach (code : Int)
deriving DecidableEq, Repr

/-- DEFAULT_SEARCH_PERMS from src/core/mem.rs. -/
def DEFAULT_SEARCH_PERMS : List MemoryRegionPerms := [MemoryRegionPerms.Write]

/-- MemoryRegion from src/core/mem.rs; the exclusive field named end in the
source is called stop here because end is a Lean keyword. -/
structure MemoryRegion where
  start : Nat
  stop : Nat
  perms : List MemoryRegionPerms
deriving DecidableEq, Repr

/-- ValueType from src/core/scan.rs. -/
inductive ValueType
  | U64
  | I64
  | U32
  | I32
  | String
  | Hex
deriving DecidableEq, Repr

/-- ValueType::get_size from src/core/scan.rs. -/
def ValueType.get_size : ValueType → Nat
  | .U64 => 8
  | .I64 => 8
  | .U32 => 4
  | .I32 => 4
  | .String => 0
  | .Hex => 0

/-- ScanError from src/core/scan.rs. -/
inductive ScanError
  | InvalidValue
  | EmptyValue
  | InvalidAddress
  | AddressMismatch
  | ReadSizeInvalid (lo hi : Nat)
  | Memory (e : MemoryError)
  | TypeMismatch
deriving DecidableEq, Repr

/-- Little-endian byte decoding: u64::from_le_bytes and friends,
as a value in Nat (byte lists of the proper width give values < 2 ^ 64). -/
def fromLeBytes : List Nat → Nat
  | [] => 0
  | b :: rest => b + 256 * fromLeBytes rest

/-- Little-endian byte encoding of width w: uN::to_le_bytes. -/
def toLeBytes : Nat → Nat → List Nat
  | 0, _ => []
  | w + 1, v => v % 256 :: toLeBytes w (v / 256)

/-- Two's-complement reading of a w-bit unsigned value, i.e.
iN::from_le_bytes composed after the unsigned decoding. -/
def toSigned (w : Nat) (n : Nat) : Int :=
  if n < 2 ^ (w - 1) then (n : Int) else (n : Int) - 2 ^ w

/-- Bounded-depth form of the decimal digit expansion; the recursion depth
is bounded by the number itself since n / 10 < n, so any fuel above n
computes the full expansion (natToDigitList_eq below recovers the
unbounded recurrence). -/
def natToDigitListF : Nat → Nat → List Nat
  | 0, _ => []
  | fuel + 1, n => if n < 10 then [n] else natToDigitListF fuel (n / 10) ++ [n % 10]

/-- The decimal digits of n, most significant first (n = 0 gives [0]);
the digit expansion used by Rust's Display for unsigned integers. -/
def natToDigitList (n : Nat) : List Nat := natToDigitListF (n + 1) n

/-- A decimal digit as a character. -/
def digitChar (d : Nat) : Char := Char.ofNat (48 + d)

/-- Decimal rendering of a Nat: Rust's Display for u64/u32 values. -/
def natToString (n : Nat) : String := ⟨(natToDigitList n).map digitChar⟩

/-- Decimal rendering of an Int: Rust's Display for i64/i32 values. -/
def intToString (i : Int) : String :=
  if i < 0 then ⟨'-' :: (natToDigitList (-i).toNat).map digitChar⟩ else natToString i.toNat

/-- Value of a decimal digit character, if it is one. -/
def decDigitVal? (c : Char) : Option Nat :=
  if 48 ≤ c.toNat ∧ c.toNat ≤ 57 then some (c.toNat - 48) else none

/-- Accumulating decimal parse: fails on the first non-digit character. -/
def parseDecDigitsAux (acc : Nat) : List Char → Option Nat
  | [] => some acc
  | c :: cs =>
    match decDigitVal? c with
    | some d => parseDecDigitsAux (acc * 10 + d) cs
    | none => none

/-- Parse a non-empty all-digit character list as a Nat. -/
def parseDecDigits (cs : List Char) : Option Nat :=
  if cs.isEmpty then none else parseDecDigitsAux 0 cs

/-- Strip one leading plus sign, as Rust's integer FromStr does. -/
def stripPlus : List Char → List Char
  | c :: r => if c = '+' then r else c :: r
  | [] => []

/-- str::parse for an unsigned integer type with maximum value bound:
optional leading plus, decimal digits, overflow rejected. -/
def parseUnsigned (bound : Nat) (cs : List Char) : Option Nat :=
  (parseDecDigits (stripPlus cs)).bind (fun v => if v ≤ bound then some v else none)

/-- str::parse for a signed integer type: optional sign, decimal digits;
negBound is the magnitude bound for negative values (2 ^ 63 for i64) and
posBound the bound for non-negative ones (2 ^ 63 - 1 for i64). -/
def parseIntStr (negBound posBound : Nat) : List Char → Option Int
  | c :: r =>
    if c = '-' then
      (parseDecDigits r).bind (fun v => if v ≤ negBound then some (-(v : Int)) else none)
    else
      (parseDecDigits (if c = '+' then r else c :: r)).bind
        (fun v => if v ≤ posBound then some ((v : Int)) else none)
  | [] => none

/-- Value of a hexadecimal digit character (both cases), if it is one. -/
def hexDigitVal? (c : Char) : Option Nat :=
  if 48 ≤ c.toNat ∧ c.toNat ≤ 57 then some (c.toNat - 48)
  else if 97 ≤ c.toNat ∧ c.toNat ≤ 102 then some (c.toNat - 87)
  else if 65 ≤ c.toNat ∧ c.toNat ≤ 70 then some (c.toNat - 55)
  else none

/-- Accumulating hexadecimal parse: fails on the first non-hex character. -/
def parseHexDigitsAux (acc : Nat) : List Char → Option Nat
  | [] => some acc
  | c :: cs =>
    match hexDigitVal? c with
    | some d => parseHexDigitsAux (acc * 16 + d) cs
    | none => none

/-- u64::from_str_radix(s, 16): optional leading plus, hex digits,
overflow beyond bound rejected. -/
def fromStrRadix16 (bound : Nat) (cs : List Char) : Option Nat :=
  if (stripPlus cs).isEmpty then none
  else (parseHexDigitsAux 0 (stripPlus cs)).bind
    (fun v => if v ≤ bound then some v else none)

/-- A hexadecimal digit as a lowercase character. -/
def hexDigitChar (d : Nat) : Char :=
  Char.ofNat (if d < 10 then 48 + d else 87 + d)

/-- hex::encode: bytes to lowercase hex, two digits per byte, no prefix. -/
def hexEncode (l : List Nat) : String :=
  ⟨(l.map (fun b => [hexDigitChar (b / 16), hexDigitChar (b % 16)])).flatten⟩

/-- hex::decode on characters: even length, hex digits, else failure. -/
def hexDecodeChars : List Char → Option (List Nat)
  | [] => some []
  | [_] => none
  | c1 :: c2 :: rest =>
    match hexDigitVal? c1, hexDigitVal? c2, hexDecodeChars rest with
    | some d1, some d2, some tl => some ((d1 * 16 + d2) :: tl)
    | _, _, _ => none

/-- str::trim_start_matches of a 0x prefix: strips repeated occurrences. -/
def trimStartMatches0x : List Char → List Char
  | '0' :: 'x' :: rest => trimStartMatches0x rest
  | l => l

/-- UTF-8 encoding of one character (str::as_bytes building block). -/
def utf8EncodeChar (c : Char) : List Nat :=
  let n := c.toNat
  if n < 0x80 then [n]
  else if n < 0x800 then [0xC0 + n / 64, 0x80 + n % 64]
  else if n < 0x10000 then [0xE0 + n / 4096, 0x80 + n / 64 % 64, 0x80 + n % 64]
  else [0xF0 + n / 262144, 0x80 + n / 4096 % 64, 0x80 + n / 64 % 64, 0x80 + n % 64]

/-- Greedy UTF-8 decoding of the longest valid prefix: the composition of
str::from_utf8's valid_up_to with String::from_utf8_lossy on that valid
prefix, as used by ValueType::get_value_string for String values. -/
def utf8DecodeAux : List Nat → List Char
  | [] => []
  | b :: rest =>
    if b < 0x80 then Char.ofNat b :: utf8DecodeAux rest
    else if 0xC2 ≤ b ∧ b ≤ 0xDF then
      match rest with
      | b2 :: rest2 =>
        if 0x80 ≤ b2 ∧ b2 ≤ 0xBF then
          Char.ofNat ((b - 0xC0) * 0x40 + (b2 - 0x80)) :: utf8DecodeAux rest2
        else []
      | [] => []
    else if 0xE0 ≤ b ∧ b ≤ 0xEF then
      match rest with
      | b2 :: b3 :: rest3 =>
        if (if b = 0xE0 then 0xA0 ≤ b2 ∧ b2 ≤ 0xBF
            else if b = 0xED then 0x80 ≤ b2 ∧ b2 ≤ 0x9F
            else 0x80 ≤ b2 ∧ b2 ≤ 0xBF) ∧ 0x80 ≤ b3 ∧ b3 ≤ 0xBF then
          Char.ofNat ((b - 0xE0) * 0x1000 + (b2 - 0x80) * 0x40 + (b3 - 0x80)) ::
            utf8DecodeAux rest3
        else []
      | _ => []
    else if 0xF0 ≤ b ∧ b ≤ 0xF4 then
      match rest with
      | b2 :: b3 :: b4 :: rest4 =>
        if (if b = 0xF0 then 0x90 ≤ b2 ∧ b2 ≤ 0xBF
            else if b = 0xF4 then 0x80 ≤ b2 ∧ b2 ≤ 0x8F
            else 0x80 ≤ b2 ∧ b2 ≤ 0xBF) ∧
            (0x80 ≤ b3 ∧ b3 ≤ 0xBF) ∧ (0x80 ≤ b4 ∧ b4 ≤ 0xBF) then
          Char.ofNat ((b - 0xF0) * 0x40000 + (b2 - 0x80) * 0x1000 +
            (b3 - 0x80) * 0x40 + (b4 - 0x80)) :: utf8DecodeAux rest4
        else []
      | _ => []
    else []
termination_by l => l.length
decreasing_by all_goals simp_arith [List.length]

/-- char::is_control: the Unicode Cc category. -/
def charIsControl (c : Char) : Bool :=
  c.toNat < 0x20 || (0x7F ≤ c.toNat && c.toNat ≤ 0x9F)

/-- The per-character escaping of get_value_string's String branch:
the ANSI escape byte as a literal backslash-x-1-b, other control
characters as backslash-x-HH (two lowercase hex digits). -/
def escapeChar (c : Char) : List Char :=
  if c = Char.ofNat 0x1B then ['\\', 'x', '1', 'b']
  else if charIsControl c then
    ['\\', 'x', hexDigitChar (c.toNat / 16), hexDigitChar (c.toNat % 16)]
  else [c]

/-- The String branch of ValueType::get_value_string: decode the longest
valid UTF-8 prefix, then escape control characters. -/
def renderStringBytes (value : List Nat) : String :=
  ⟨((utf8DecodeAux value).map escapeChar).flatten⟩

/-- ValueType::get_value_string from src/core/scan.rs: None models the
TryFromSliceError of a failed fixed-width conversion. -/
def ValueType.get_value_string (t : ValueType) (value : List Nat) : Option Str :=
  if value = [] then some "" else
  match t with
  | .U64 => if value.length = 8 then some (natToString (fromLeBytes value)) else none
  | .I64 => if value.length = 8 then some (intToString (toSigned 64 (fromLeBytes value))) else none
  | .U32 => if value.length = 4 then some (natToString (fromLeBytes value)) else none
  | .I32 => if value.length = 4 then some (intToString (toSigned 32 (fromLeBytes value))) else none
  | .String => some (renderStringBytes value)
  | .Hex => some (hexEncode value)

/-- ScanResult from src/core/scan.rs. -/
structure ScanResult where
  address : Nat
  value_type : ValueType
  perms : List MemoryRegionPerms
  value : List Nat
deriving DecidableEq, Repr

/-- ScanResult::new from src/core/scan.rs. -/
def ScanResult.new (address : Nat) (value_type : ValueType) (value : List Nat)
    (perms : List MemoryRegionPerms) : ScanResult :=
  { address := address, value_type := value_type, perms := perms, value := value }

/-- ScanResult::get_string from src/core/scan.rs. -/
def ScanResult.get_string (r : ScanResult) : Except ScanError Str :=
  match r.value_type.get_value_string r.value with
  | some s => Except.ok s
  | none => Except.error ScanError.TypeMismatch

/-- ScanResult::is_read_only from src/core/scan.rs. -/
def ScanResult.is_read_only (r : ScanResult) : Bool :=
  !(r.perms.contains MemoryRegionPerms.Write)

/-- Scan from src/core/scan.rs. -/
structure Scan where
  pid : Nat
  value : List Nat
  value_type : ValueType
  results : List ScanResult
  watchlist : List ScanResult
  read_size : Option Nat
  start_address : Option Nat
  end_address : Option Nat
  memory_permissions : List MemoryRegionPerms
  memory_regions : List MemoryRegion
deriving DecidableEq, Repr

/-- The OS cross-process read primitive read_memory_address(pid, addr, size),
abstracted with the pid already applied: address and byte count in, either
the bytes read or a MemoryError out. -/
def ReadFn : Type := Nat → Nat → Except MemoryError (List Nat)

/-- The OS region enumerator get_memory_regions(pid, start, end, perms),
abstracted as a function parameter. -/
def FetchFn : Type :=
  Nat → Option Nat → Option Nat → List MemoryRegionPerms →
    Except MemoryError (List MemoryRegion)

/-- memmem::find_iter: every (possibly overlapping) occurrence position of
the needle inside the haystack, in ascending order. -/
def findIter (hay needle : List Nat) : List Nat :=
  (List.range (hay.length + 1 - needle.length)).filter
    (fun i => (hay.drop i).take needle.length = needle)

/-- BLOCK_SIZE from Scan::scan_region. -/
def BLOCK_SIZE : Nat := 0x10000

/-- The while loop of Scan::scan_region, from the current address cur:
read min(BLOCK_SIZE, end - cur) bytes; stop if the block is smaller than
size = read_size.unwrap_or(value.len()); a ProcessAttach error aborts,
any other read error silently skips the block; on success every needle
occurrence yields a ScanResult capturing up to size bytes; then advance
by to_read - (size - 1). -/
def scanRegionLoopF (s : Scan) (read : ReadFn) (region : MemoryRegion) :
    Nat → Nat → Except MemoryError (List ScanResult)
  | 0, _ => Except.ok []
  | fuel + 1, cur =>
    if cur < region.stop then
      if min BLOCK_SIZE (region.stop - cur) < s.read_size.getD s.value.length then
        Except.ok []
      else
        match read cur (min BLOCK_SIZE (region.stop - cur)) with
        | Except.error (MemoryError.ProcessAttach c) =>
          Except.error (MemoryError.ProcessAttach c)
        | Except.error _ =>
          scanRegionLoopF s read region fuel
            (cur + (min BLOCK_SIZE (region.stop - cur) - (s.read_size.getD s.value.length - 1)))
        | Except.ok val =>
          match scanRegionLoopF s read region fuel
            (cur + (min BLOCK_SIZE (region.stop - cur) - (s.read_size.getD s.value.length - 1))) with
          | Except.error e => Except.error e
          | Except.ok rest =>
            Except.ok (((findIter val s.value).map (fun i =>
              ScanResult.new (cur + i) s.value_type
                ((val.drop i).take (min (i + s.read_size.getD s.value.length) val.length - i))
                region.perms)) ++ rest)
    else Except.ok []

/-- The while loop of Scan::scan_region, entered at address cur. Each
iteration advances the address by at least one, so fuel stop - cur + 1
never runs out; scanRegionLoop_eq below recovers the exact loop
recurrence. -/
def scanRegionLoop (s : Scan) (read : ReadFn) (region : MemoryRegion) (cur : Nat) :
    Except MemoryError (List ScanResult) :=
  scanRegionLoopF s read region (region.stop - cur + 1) cur

/-- Scan::scan_region from src/core/scan.rs. -/
def Scan.scan_region (s : Scan) (read : ReadFn) (region : MemoryRegion) :
    Except MemoryError (List ScanResult) :=
  scanRegionLoop s read region region.start

/-- Bounded-depth form of scanRegionTrace (same control flow as
scanRegionLoopF, recording read positions instead of results). -/
def scanRegionTraceF (s : Scan) (read : ReadFn) (region : MemoryRegion) :
    Nat → Nat → List Nat
  | 0, _ => []
  | fuel + 1, cur =>
    if cur < region.stop then
      if min BLOCK_SIZE (region.stop - cur) < s.read_size.getD s.value.length then []
      else
        match read cur (min BLOCK_SIZE (region.stop - cur)) with
        | Except.error (MemoryError.ProcessAttach _) => [cur]
        | _ =>
          cur :: scanRegionTraceF s read region fuel
            (cur + (min BLOCK_SIZE (region.stop - cur) - (s.read_size.getD s.value.length - 1)))
    else []

/-- The successive values of current_address at which the block loop of
Scan::scan_region attempts a read (same control flow as scanRegionLoop,
recording positions instead of results); scanRegionTrace_eq below
recovers the exact loop recurrence. -/
def scanRegionTrace (s : Scan) (read : ReadFn) (region : MemoryRegion) (cur : Nat) :
    List Nat :=
  scanRegionTraceF s read region (region.stop - cur + 1) cur

/-- Scan::check_value from src/core/scan.rs: the scan guard. -/
def Scan.check_value (s : Scan) : Option ScanError :=
  if s.value = [] then some ScanError.EmptyValue
  else
    match s.value_type.get_value_string s.value with
    | some _ => none
    | none => some ScanError.TypeMismatch

/-- The shared loop body of Scan::refresh and Scan::refresh_watchlist: for
each entry, re-read read_size.unwrap_or(entry.value.len()) bytes at its
address; a ProcessAttach error aborts leaving this and later entries as
they were; any other error leaves the entry untouched; success replaces
value and value_type. Returns the (possibly partially) updated list and
the aborting error, if any. -/
def refreshEntries (read_size : Option Nat) (vt : ValueType) (read : ReadFn) :
    List ScanResult → List ScanResult × Option MemoryError
  | [] => ([], none)
  | r :: rest =>
    match read r.address (read_size.getD r.value.length) with
    | Except.error (MemoryError.ProcessAttach c) =>
      (r :: rest, some (MemoryError.ProcessAttach c))
    | Except.error _ =>
      let (rest2, e) := refreshEntries read_size vt read rest
      (r :: rest2, e)
    | Except.ok val =>
      let (rest2, e) := refreshEntries read_size vt read rest
      ({ r with value_type := vt, value := val } :: rest2, e)

/-- Scan::refresh_watchlist from src/core/scan.rs. Mutating methods are
modelled as returning the updated state together with the error, if any,
so that partial in-place updates before an abort are kept. -/
def Scan.refresh_watchlist (s : Scan) (read : ReadFn) : Scan × Option ScanError :=
  match s.check_value with
  | some e => (s, some e)
  | none =>
    let (wl, e) := refreshEntries s.read_size s.value_type read s.watchlist
    ({ s with watchlist := wl }, e.map ScanError.Memory)

/-- The for loop of Scan::init over the cached regions, concatenating the
per-region results; a ProcessAttach abort propagates. -/
def scanAllRegions (s : Scan) (read : ReadFn) :
    List MemoryRegion → Except MemoryError (List ScanResult)
  | [] => Except.ok []
  | region :: rest =>
    match s.scan_region read region with
    | Except.error e => Except.error e
    | Except.ok res =>
      match scanAllRegions s read rest with
      | Except.error e => Except.error e
      | Except.ok more => Except.ok (res ++ more)

/-- Scan::init from src/core/scan.rs: the full scan. -/
def Scan.init (s : Scan) (read : ReadFn) : Scan × Option ScanError :=
  match s.check_value with
  | some e => (s, some e)
  | none =>
    match scanAllRegions s read s.memory_regions with
    | Except.error e => (s, some (ScanError.Memory e))
    | Except.ok results => Scan.refresh_watchlist { s with results := results } read

/-- Scan::refresh from src/core/scan.rs. -/
def Scan.refresh (s : Scan) (read : ReadFn) : Scan × Option ScanError :=
  match s.check_value with
  | some e => (s, some e)
  | none =>
    let (res, e) := refreshEntries s.read_size s.value_type read s.results
    match e with
    | some me => ({ s with results := res }, some (ScanError.Memory me))
    | none => Scan.refresh_watchlist { s with results := res } read

/-- The for loop of Scan::next_scan: re-read each existing result; abort on
ProcessAttach (before self.results is replaced), drop the entry on any
other read error, and keep it (with refreshed value and value_type) only
when the read bytes start with the pattern. -/
def nextScanEntries (read_size : Option Nat) (vt : ValueType) (pattern : List Nat)
    (read : ReadFn) : List ScanResult → Except MemoryError (List ScanResult)
  | [] => Except.ok []
  | r :: rest =>
    match read r.address (read_size.getD r.value.length) with
    | Except.error (MemoryError.ProcessAttach c) =>
      Except.error (MemoryError.ProcessAttach c)
    | Except.error _ => nextScanEntries read_size vt pattern read rest
    | Except.ok val =>
      if pattern.length ≤ val.length ∧ val.take pattern.length = pattern then
        match nextScanEntries read_size vt pattern read rest with
        | Except.error e => Except.error e
        | Except.ok more =>
          Except.ok ({ r with value_type := vt, value := val } :: more)
      else nextScanEntries read_size vt pattern read rest

/-- Scan::next_scan from src/core/scan.rs: the narrowing scan. -/
def Scan.next_scan (s : Scan) (read : ReadFn) : Scan × Option ScanError :=
  match s.check_value with
  | some e => (s, some e)
  | none =>
    match nextScanEntries s.read_size s.value_type s.value read s.results with
    | Except.error e => (s, some (ScanError.Memory e))
    | Except.ok results => Scan.refresh_watchlist { s with results := results } read

/-- Scan::value_from_str from src/core/scan.rs: parse a string under the
current value type into pattern bytes; None models ScanError::InvalidValue. -/
def Scan.value_from_str (s : Scan) (value_str : Str) : Option (List Nat) :=
  match s.value_type with
  | ValueType.U64 => (parseUnsigned (2 ^ 64 - 1) value_str.data).map (toLeBytes 8)
  | ValueType.I64 =>
    (parseIntStr (2 ^ 63) (2 ^ 63 - 1) value_str.data).map
      (fun i => toLeBytes 8 (i % (2 ^ 64 : Int)).toNat)
  | ValueType.U32 => (parseUnsigned (2 ^ 32 - 1) value_str.data).map (toLeBytes 4)
  | ValueType.I32 =>
    (parseIntStr (2 ^ 31) (2 ^ 31 - 1) value_str.data).map
      (fun i => toLeBytes 4 (i % (2 ^ 32 : Int)).toNat)
  | ValueType.String => some ((value_str.data.map utf8EncodeChar).flatten)
  | ValueType.Hex => hexDecodeChars (trimStartMatches0x value_str.data)

/-- Scan::set_read_size from src/core/scan.rs. -/
def Scan.set_read_size (s : Scan) (size : Option Nat) : Scan × Option ScanError :=
  match size with
  | some n =>
    if 1 ≤ n ∧ n ≤ 256 then ({ s with read_size := some n }, none)
    else (s, some (ScanError.ReadSizeInvalid 1 256))
  | none => ({ s with read_size := none }, none)

/-- Scan::parse_address_hex from src/core/scan.rs: empty clears the bound;
otherwise strip 0x prefixes and parse as u64 hex. -/
def Scan.parse_address_hex (addr_hex : Str) : Except ScanError (Option Nat) :=
  if addr_hex.data.isEmpty then Except.ok none
  else
    match fromStrRadix16 (2 ^ 64 - 1) (trimStartMatches0x addr_hex.data) with
    | some v => Except.ok (some v)
    | none => Except.error ScanError.InvalidAddress

/-- Scan::update_memory_regions from src/core/scan.rs. -/
def Scan.update_memory_regions (s : Scan) (fetch : FetchFn) : Scan × Option ScanError :=
  match fetch s.pid s.start_address s.end_address s.memory_permissions with
  | Except.error e => (s, some (ScanError.Memory e))
  | Except.ok regs => ({ s with memory_regions := regs }, none)

/-- The if-let ordering guard of the address setters: both bounds present
and end strictly below start. -/
def addrPairMismatch (ostart oend : Option Nat) : Bool :=
  match ostart, oend with
  | some st, some en => decide (en < st)
  | _, _ => false

/-- Scan::set_start_address from src/core/scan.rs. -/
def Scan.set_start_address (s : Scan) (fetch : FetchFn) (addr_hex : Str) :
    Scan × Option ScanError :=
  match Scan.parse_address_hex addr_hex with
  | Except.error e => (s, some e)
  | Except.ok parsed =>
    if addrPairMismatch parsed s.end_address then (s, some ScanError.AddressMismatch)
    else Scan.update_memory_regions { s with start_address := parsed } fetch

/-- Scan::set_end_address from src/core/scan.rs. -/
def Scan.set_end_address (s : Scan) (fetch : FetchFn) (addr_hex : Str) :
    Scan × Option ScanError :=
  match Scan.parse_address_hex addr_hex with
  | Except.error e => (s, some e)
  | Except.ok parsed =>
    if addrPairMismatch s.start_address parsed then (s, some ScanError.AddressMismatch)
    else Scan.update_memory_regions { s with end_address := parsed } fetch

/-- Scan::add_to_watchlist from src/core/scan.rs. -/
def Scan.add_to_watchlist (s : Scan) (result : ScanResult) : Scan :=
  if s.watchlist.any (fun w => w.address = result.address) then s
  else { s with watchlist := s.watchlist ++ [result] }

/-- Scan::remove_from_watchlist from src/core/scan.rs. -/
def Scan.remove_from_watchlist (s : Scan) (address : Nat) : Scan :=
  match s.watchlist.findIdx? (fun w => w.address = address) with
  | none => s
  | some i => { s with watchlist := s.watchlist.eraseIdx i }

/-- Outcome of running a piece of Linux maps-parsing code: crash models a
Rust panic (the out-of-bounds byte-range slice), err a returned
MemoryError, ok a normal value. -/
inductive LinuxParse (α : Type)
  | crash
  | err (e : MemoryError)
  | ok (a : α)
deriving DecidableEq, Repr

/-- str::split_whitespace on characters: maximal non-whitespace runs. -/
def splitWhitespaceAux (cur : List Char) : List Char → List (List Char)
  | [] => if cur.isEmpty then [] else [cur.reverse]
  | c :: cs =>
    if c.isWhitespace then
      if cur.isEmpty then splitWhitespaceAux [] cs
      else cur.reverse :: splitWhitespaceAux [] cs
    else splitWhitespaceAux (c :: cur) cs

/-- str::split_whitespace on characters. -/
def splitWhitespace (cs : List Char) : List (List Char) :=
  splitWhitespaceAux [] cs

/-- str::split(sep) on characters: the pieces between separator
occurrences; always at least one (possibly empty) piece. -/
def splitOnChar (sep : Char) (cs : List Char) : List (List Char) :=
  match cs with
  | [] => [[]]
  | c :: rest =>
    let tail := splitOnChar sep rest
    if c = sep then [] :: tail
    else
      match tail with
      | piece :: more => (c :: piece) :: more
      | [] => [[c]]

/-- One iteration of the line loop of the Linux get_memory_regions
(src/core/mem.rs): split the line on whitespace, take the address range
and the permission field (defaulted to the empty string when missing),
split the range on the dash, parse both bounds as hex (failures are
MemRead(0)), skip lines outside [startAddr, endAddr], then slice the
first three bytes of the permission field - a slice that panics (crash)
when the field is shorter than three characters - and keep the region
when it has at least one searched permission. ok none means the line was
skipped (out of range or permission filter miss). -/
def parseMapsLine (searchPerms : List MemoryRegionPerms) (startAddr endAddr : Nat)
    (line : List Char) : LinuxParse (Option MemoryRegion) :=
  match splitWhitespace line with
  | [] => LinuxParse.err (MemoryError.MemRead 0)
  | range :: rest =>
    let perms := (rest.head?).getD []
    match splitOnChar '-' range with
    | startStr :: endStr :: _ =>
      match fromStrRadix16 (2 ^ 64 - 1) startStr, fromStrRadix16 (2 ^ 64 - 1) endStr with
      | some startVal, some endVal =>
        if endVal < startAddr ∨ endAddr < startVal then LinuxParse.ok none
        else if perms.length < 3 then LinuxParse.crash
        else
          let p3 := perms.take 3
          let regionPerms :=
            (if p3.contains 'r' then [MemoryRegionPerms.Read] else []) ++
            (if p3.contains 'w' then [MemoryRegionPerms.Write] else [])
          if 0 < (searchPerms.filter (fun p => regionPerms.contains p)).length then
            LinuxParse.ok (some { start := startVal, stop := endVal, perms := regionPerms })
          else LinuxParse.ok none
      | _, _ => LinuxParse.err (MemoryError.MemRead 0)
    | _ => LinuxParse.err (MemoryError.MemRead 0)

/-- The line loop of the Linux get_memory_regions: first crash or error
wins, skipped lines contribute nothing. -/
def mapsLinesLoop (searchPerms : List MemoryRegionPerms) (startAddr endAddr : Nat) :
    List (List Char) → LinuxParse (List MemoryRegion)
  | [] => LinuxParse.ok []
  | line :: rest =>
    match parseMapsLine searchPerms startAddr endAddr line with
    | LinuxParse.crash => LinuxParse.crash
    | LinuxParse.err e => LinuxParse.err e
    | LinuxParse.ok none => mapsLinesLoop searchPerms startAddr endAddr rest
    | LinuxParse.ok (some region) =>
      match mapsLinesLoop searchPerms startAddr endAddr rest with
      | LinuxParse.crash => LinuxParse.crash
      | LinuxParse.err e => LinuxParse.err e
      | LinuxParse.ok more => LinuxParse.ok (region :: more)

/-- The Linux get_memory_regions from src/core/mem.rs. The state of the
procfs file is passed explicitly: openResult is Except.error code when
File::open of /proc/pid/maps fails with that OS error (mapped by the
source to MemoryError::NoPermission), otherwise the list of lines. -/
def get_memory_regions_linux (openResult : Except Int (List (List Char)))
    (start stop : Option Nat) (searchPerms : Option (List MemoryRegionPerms)) :
    LinuxParse (List MemoryRegion) :=
  match openResult with
  | Except.error code => LinuxParse.err (MemoryError.NoPermission code)
  | Except.ok lines =>
    mapsLinesLoop (searchPerms.getD DEFAULT_SEARCH_PERMS)
      (start.getD 0) (stop.getD (2 ^ 64 - 1)) lines

/-- Smallest value of an integer ValueType as accepted by str::parse
(statement-side helper for the codec round-trip claim). -/
def typeMinInt : ValueType → Int
  | ValueType.I64 => -(2 ^ 63)
  | ValueType.I32 => -(2 ^ 31)
  | _ => 0

/-- Largest value of an integer ValueType as accepted by str::parse
(statement-side helper for the codec round-trip claim). -/
def typeMaxInt : ValueType → Int
  | ValueType.U64 => 2 ^ 64 - 1
  | ValueType.I64 => 2 ^ 63 - 1
  | ValueType.U32 => 2 ^ 32 - 1
  | ValueType.I32 => 2 ^ 31 - 1
  | _ => 0

/-- A baseline scan state used by the concrete instances below. -/
def baseScan : Scan :=
  { pid := 0, value := [], value_type := ValueType.U32, results := [], watchlist := [],
    read_size := none, start_address := none, end_address := none,
    memory_permissions := [], memory_regions := [] }

/-- A read function that always succeeds with an empty buffer. -/
def readEmpty : ReadFn := fun _ _ => Except.ok []

/-- A read function that always succeeds with all-zero bytes. -/
def readZeros : ReadFn := fun _ n => Except.ok (List.replicate n 0)

/-- A read function over a memory image holding byte 1 at absolute
address 0 and zeros everywhere else. -/
def readOneAtZero : ReadFn :=
  fun a n => Except.ok ((List.range n).map (fun j => if a + j = 0 then 1 else 0))

/-- A region enumerator that always returns no regions. -/
def fetchNone : FetchFn := fun _ _ _ _ => Except.ok []

/-- Scan state for the block-advance analysis: a five-byte pattern with
read_size set to 10. -/
def advScan : Scan :=
  { baseScan with value := [65, 65, 65, 65, 65], value_type := ValueType.String,
                  read_size := some 10 }

/-- A two-block region for the block-advance analysis. -/
def advRegion : MemoryRegion := { start := 0, stop := 131072, perms := [] }

/-- Scan state for the refresh analysis: current type I32, one existing
U32 result. -/
def refScan : Scan :=
  { baseScan with value := [1, 0, 0, 0], value_type := ValueType.I32,
                  results := [{ address := 16, value_type := ValueType.U32,
                                perms := [], value := [1, 2, 3, 4] }] }

/-- Scan state for the narrowing-scan analysis: a U32 pattern with one
matching result at address 0. -/
def nextScanScan : Scan :=
  { baseScan with value := [1, 0, 0, 0],
                  results := [{ address := 0, value_type := ValueType.U32,
                                perms := [], value := [1, 0, 0, 0] }] }

/-- Scan state for the capture-length analysis: U32 pattern, read_size 10,
one 20-byte writable region starting at 0. -/
def lenScan : Scan :=
  { baseScan with value := [1, 0, 0, 0], read_size := some 10,
                  memory_regions := [{ start := 0, stop := 20,
                                       perms := [MemoryRegionPerms.Write] }] }

/-- The single result that the capture-length scan produces. -/
def lenEntry : ScanResult :=
  { address := 0, value_type := ValueType.U32, perms := [MemoryRegionPerms.Write],
    value := [1, 0, 0, 0, 0, 0, 0, 0, 0, 0] }

/-- Scan state for the address-setter analysis: end bound fixed at 0x1000. -/
def boundScan : Scan := { baseScan with end_address := some 0x1000 }

/-- Scan state for the loop-progress analysis: one-byte pattern, no
read_size override. -/
def stepScan : Scan := { baseScan with value := [1] }

/-- A small region for the loop-progress analysis. -/
def stepRegion : MemoryRegion := { start := 0, stop := 100, perms := [] }

/-- Scan state fixing the current value type to U32 for codec analysis. -/
def u32Scan : Scan := baseScan

theorem natToDigitListF_congr :
    ∀ fuel fuel' n, n < fuel → n < fuel' →
      natToDigitListF fuel n = natToDigitListF fuel' n := by
  intro fuel
  induction fuel with
  | zero => intro fuel' n h; omega
  | succ f ih =>
    intro fuel' n h h'
    obtain ⟨f', rfl⟩ : ∃ f', fuel' = f' + 1 := ⟨fuel' - 1, by omega⟩
    simp only [natToDigitListF]
    by_cases h10 : n < 10
    · simp [h10]
    · simp only [if_neg h10]
      rw [ih f' (n / 10) (by omega) (by omega)]

/-- The decimal digit expansion satisfies the intended recurrence. -/
theorem natToDigitList_eq (n : Nat) :
    natToDigitList n = if n < 10 then [n] else natToDigitList (n / 10) ++ [n % 10] := by
  show natToDigitListF (n + 1) n = _
  simp only [natToDigitListF]
  by_cases h10 : n < 10
  · simp [h10]
  · simp only [if_neg h10]
    rw [natToDigitListF_congr n (n / 10 + 1) (n / 10) (by omega) (by omega)]
    rfl

/-- The advance of the block loop is at least one whenever the loop body
runs, so the address strictly increases. -/
theorem blockAdvancePos (stop cur size : Nat) (hc : cur < stop)
    (hsz : ¬ min BLOCK_SIZE (stop - cur) < size) :
    1 ≤ min BLOCK_SIZE (stop - cur) - (size - 1) := by
  have hB : BLOCK_SIZE = 65536 := rfl
  simp only [hB] at hsz ⊢
  omega

theorem scanRegionLoopF_congr (s : Scan) (read : ReadFn) (region : MemoryRegion) :
    ∀ fuel fuel' cur, region.stop - cur < fuel → region.stop - cur < fuel' →
      scanRegionLoopF s read region fuel cur = scanRegionLoopF s read region fuel' cur := by
  intro fuel
  induction fuel with
  | zero => intro fuel' cur h; omega
  | succ f ih =>
    intro fuel' cur h h'
    obtain ⟨f', rfl⟩ : ∃ f', fuel' = f' + 1 := ⟨fuel' - 1, by omega⟩
    simp only [scanRegionLoopF]
    by_cases hc : cur < region.stop
    · simp only [if_pos hc]
      by_cases hsz : min BLOCK_SIZE (region.stop - cur) < s.read_size.getD s.value.length
      · simp [hsz]
      · simp only [if_neg hsz]
        have hstep := blockAdvancePos region.stop cur (s.read_size.getD s.value.length) hc hsz
        have hadv : region.stop -
            (cur + (min BLOCK_SIZE (region.stop - cur) -
              (s.read_size.getD s.value.length - 1))) < f := by omega
        have hadv' : region.stop -
            (cur + (min BLOCK_SIZE (region.stop - cur) -
              (s.read_size.getD s.value.length - 1))) < f' := by omega
        cases hread : read cur (min BLOCK_SIZE (region.stop - cur)) with
        | error e =>
          cases e with
          | NoPermission c => exact ih f' _ hadv hadv'
          | MemRead c => exact ih f' _ hadv hadv'
          | MemWrite c => exact ih f' _ hadv hadv'
          | ProcessAttach c => rfl
        | ok val => rw [ih f' _ hadv hadv']
    · simp [hc]

/-- The block loop of Scan::scan_region satisfies the exact while-loop
recurrence of the source. -/
theorem scanRegionLoop_eq (s : Scan) (read : ReadFn) (region : MemoryRegion) (cur : Nat) :
    scanRegionLoop s read region cur =
      if cur < region.stop then
        if min BLOCK_SIZE (region.stop - cur) < s.read_size.getD s.value.length then
          Except.ok []
        else
          match read cur (min BLOCK_SIZE (region.stop - cur)) with
          | Except.error (MemoryError.ProcessAttach c) =>
            Except.error (MemoryError.ProcessAttach c)
          | Except.error _ =>
            scanRegionLoop s read region
              (cur + (min BLOCK_SIZE (region.stop - cur) - (s.read_size.getD s.value.length - 1)))
          | Except.ok val =>
            match scanRegionLoop s read region
              (cur + (min BLOCK_SIZE (region.stop - cur) -
                (s.read_size.getD s.value.length - 1))) with
            | Except.error e => Except.error e
            | Except.ok rest =>
              Except.ok (((findIter val s.value).map (fun i =>
                ScanResult.new (cur + i) s.value_type
                  ((val.drop i).take
                    (min (i + s.read_size.getD s.value.length) val.length - i))
                  region.perms)) ++ rest)
      else Except.ok [] := by
  show scanRegionLoopF s read region (region.stop - cur + 1) cur = _
  simp only [scanRegionLoopF]
  by_cases hc : cur < region.stop
  · simp only [if_pos hc]
    by_cases hsz : min BLOCK_SIZE (region.stop - cur) < s.read_size.getD s.value.length
    · simp [hsz]
    · simp only [if_neg hsz]
      have hstep := blockAdvancePos region.stop cur (s.read_size.getD s.value.length) hc hsz
      have hcongr := scanRegionLoopF_congr s read region (region.stop - cur)
        (region.stop -
          (cur + (min BLOCK_SIZE (region.stop - cur) -
            (s.read_size.getD s.value.length - 1))) + 1)
        (cur + (min BLOCK_SIZE (region.stop - cur) - (s.read_size.getD s.value.length - 1)))
        (by omega) (by omega)
      cases hread : read cur (min BLOCK_SIZE (region.stop - cur)) with
      | error e =>
        cases e with
        | NoPermission c => exact hcongr
        | MemRead c => exact hcongr
        | MemWrite c => exact hcongr
        | ProcessAttach c => rfl
      | ok val => rw [hcongr]; rfl
  · simp [hc]

theorem scanRegionTraceF_congr (s : Scan) (read : ReadFn) (region : MemoryRegion) :
    ∀ fuel fuel' cur, region.stop - cur < fuel → region.stop - cur < fuel' →
      scanRegionTraceF s read region fuel cur = scanRegionTraceF s read region fuel' cur := by
  intro fuel
  induction fuel with
  | zero => intro fuel' cur h; omega
  | succ f ih =>
    intro fuel' cur h h'
    obtain ⟨f', rfl⟩ : ∃ f', fuel' = f' + 1 := ⟨fuel' - 1, by omega⟩
    simp only [scanRegionTraceF]
    by_cases hc : cur < region.stop
    · simp only [if_pos hc]
      by_cases hsz : min BLOCK_SIZE (region.stop - cur) < s.read_size.getD s.value.length
      · simp [hsz]
      · simp only [if_neg hsz]
        have hstep := blockAdvancePos region.stop cur (s.read_size.getD s.value.length) hc hsz
        have hadv : region.stop -
            (cur + (min BLOCK_SIZE (region.stop - cur) -
              (s.read_size.getD s.value.length - 1))) < f := by omega
        have hadv' : region.stop -
            (cur + (min BLOCK_SIZE (region.stop - cur) -
              (s.read_size.getD s.value.length - 1))) < f' := by omega
        cases hread : read cur (min BLOCK_SIZE (region.stop - cur)) with
        | error e =>
          cases e with
          | NoPermission c => rw [ih f' _ hadv hadv']
          | MemRead c => rw [ih f' _ hadv hadv']
          | MemWrite c => rw [ih f' _ hadv hadv']
          | ProcessAttach c => rfl
        | ok val => rw [ih f' _ hadv hadv']
    · simp [hc]

/-- The read-position trace satisfies the exact while-loop recurrence of
the source. -/
theorem scanRegionTrace_eq (s : Scan) (read : ReadFn) (region : MemoryRegion) (cur : Nat) :
    scanRegionTrace s read region cur =
      if cur < region.stop then
        if min BLOCK_SIZE (region.stop - cur) < s.read_size.getD s.value.length then []
        else
          match read cur (min BLOCK_SIZE (region.stop - cur)) with
          | Except.error (MemoryError.ProcessAttach _) => [cur]
          | _ =>
            cur :: scanRegionTrace s read region
              (cur + (min BLOCK_SIZE (region.stop - cur) - (s.read_size.getD s.value.length - 1)))
      else [] := by
  show scanRegionTraceF s read region (region.stop - cur + 1) cur = _
  simp only [scanRegionTraceF]
  by_cases hc : cur < region.stop
  · simp only [if_pos hc]
    by_cases hsz : min BLOCK_SIZE (region.stop - cur) < s.read_size.getD s.value.length
    · simp [hsz]
    · simp only [if_neg hsz]
      have hstep := blockAdvancePos region.stop cur (s.read_size.getD s.value.length) hc hsz
      have hcongr := scanRegionTraceF_congr s read region (region.stop - cur)
        (region.stop -
          (cur + (min BLOCK_SIZE (region.stop - cur) -
            (s.read_size.getD s.value.length - 1))) + 1)
        (cur + (min BLOCK_SIZE (region.stop - cur) - (s.read_size.getD s.value.length - 1)))
        (by omega) (by omega)
      cases hread : read cur (min BLOCK_SIZE (region.stop - cur)) with
      | error e =>
        cases e with
        | NoPermission c => rw [hcongr]; rfl
        | MemRead c => rw [hcongr]; rfl
        | MemWrite c => rw [hcongr]; rfl
        | ProcessAttach c => rfl
      | ok val => rw [hcongr]; rfl
  · simp [hc]

/-- The trace starting at cur is empty or starts with cur itself. -/
theorem scanRegionTraceF_head (s : Scan) (read : ReadFn) (region : MemoryRegion)
    (fuel cur : Nat) :
    (scanRegionTraceF s read region fuel cur).head? = none ∨
      (scanRegionTraceF s read region fuel cur).head? = some cur := by
  cases fuel with
  | zero => left; rfl
  | succ f =>
    simp only [scanRegionTraceF]
    by_cases hc : cur < region.stop
    · simp only [if_pos hc]
      by_cases hsz : min BLOCK_SIZE (region.stop - cur) < s.read_size.getD s.value.length
      · simp [hsz]
      · simp only [if_neg hsz]
        cases hread : read cur (min BLOCK_SIZE (region.stop - cur)) with
        | error e => cases e <;> simp
        | ok val => simp
    · simp [hc]

theorem scanRegionTraceF_chain (s : Scan) (read : ReadFn) (region : MemoryRegion) :
    ∀ fuel cur,
      List.Chain'
        (fun p q => q = p +
          (min BLOCK_SIZE (region.stop - p) - (s.read_size.getD s.value.length - 1)))
        (scanRegionTraceF s read region fuel cur) := by
  intro fuel
  induction fuel with
  | zero => intro cur; exact List.chain'_nil
  | succ f ih =>
    intro cur
    simp only [scanRegionTraceF]
    by_cases hc : cur < region.stop
    · simp only [if_pos hc]
      by_cases hsz : min BLOCK_SIZE (region.stop - cur) < s.read_size.getD s.value.length
      · simp [hsz]
      · simp only [if_neg hsz]
        have hcons : List.Chain'
            (fun p q => q = p +
              (min BLOCK_SIZE (region.stop - p) - (s.read_size.getD s.value.length - 1)))
            (cur :: scanRegionTraceF s read region f
              (cur + (min BLOCK_SIZE (region.stop - cur) -
                (s.read_size.getD s.value.length - 1)))) := by
          rw [List.chain'_cons']
          refine ⟨?_, ih _⟩
          intro y hy
          rcases scanRegionTraceF_head s read region f
            (cur + (min BLOCK_SIZE (region.stop - cur) -
              (s.read_size.getD s.value.length - 1))) with hh | hh
          · rw [hh] at hy; cases hy
          · rw [hh] at hy
            cases hy
            rfl
        cases hread : read cur (min BLOCK_SIZE (region.stop - cur)) with
        | error e => cases e <;> first | exact List.chain'_singleton _ | exact hcons
        | ok val => exact hcons
    · simp [hc]

theorem scanRegionTraceF_mem (s : Scan) (read : ReadFn) (region : MemoryRegion) :
    ∀ fuel cur, ∀ p ∈ scanRegionTraceF s read region fuel cur,
      p < region.stop ∧
        s.read_size.getD s.value.length ≤ min BLOCK_SIZE (region.stop - p) := by
  intro fuel
  induction fuel with
  | zero => intro cur p hp; cases hp
  | succ f ih =>
    intro cur p hp
    simp only [scanRegionTraceF] at hp
    by_cases hc : cur < region.stop
    · rw [if_pos hc] at hp
      by_cases hsz : min BLOCK_SIZE (region.stop - cur) < s.read_size.getD s.value.length
      · rw [if_pos hsz] at hp; cases hp
      · rw [if_neg hsz] at hp
        cases hread : read cur (min BLOCK_SIZE (region.stop - cur)) with
        | error e =>
          rw [hread] at hp
          cases e with
          | ProcessAttach c =>
            simp only [List.mem_singleton] at hp
            subst hp
            exact ⟨hc, by omega⟩
          | NoPermission c =>
            rcases List.mem_cons.mp hp with rfl | hp2
            · exact ⟨hc, by omega⟩
            · exact ih _ p hp2
          | MemRead c =>
            rcases List.mem_cons.mp hp with rfl | hp2
            · exact ⟨hc, by omega⟩
            · exact ih _ p hp2
          | MemWrite c =>
            rcases List.mem_cons.mp hp with rfl | hp2
            · exact ⟨hc, by omega⟩
            · exact ih _ p hp2
        | ok val =>
          rw [hread] at hp
          rcases List.mem_cons.mp hp with rfl | hp2
          · exact ⟨hc, by omega⟩
          · exact ih _ p hp2
    · rw [if_neg hc] at hp; cases hp

theorem scanRegionTraceF_chain_lt (s : Scan) (read : ReadFn) (region : MemoryRegion) :
    ∀ fuel cur, List.Chain' (· < ·) (scanRegionTraceF s read region fuel cur) := by
  intro fuel
  induction fuel with
  | zero => intro cur; exact List.chain'_nil
  | succ f ih =>
    intro cur
    simp only [scanRegionTraceF]
    by_cases hc : cur < region.stop
    · simp only [if_pos hc]
      by_cases hsz : min BLOCK_SIZE (region.stop - cur) < s.read_size.getD s.value.length
      · simp [hsz]
      · simp only [if_neg hsz]
        have hstep := blockAdvancePos region.stop cur (s.read_size.getD s.value.length) hc hsz
        have hcons : List.Chain' (· < ·)
            (cur :: scanRegionTraceF s read region f
              (cur + (min BLOCK_SIZE (region.stop - cur) -
                (s.read_size.getD s.value.length - 1)))) := by
          rw [List.chain'_cons']
          refine ⟨?_, ih _⟩
          intro y hy
          rcases scanRegionTraceF_head s read region f
            (cur + (min BLOCK_SIZE (region.stop - cur) -
              (s.read_size.getD s.value.length - 1))) with hh | hh
          · rw [hh] at hy; cases hy
          · rw [hh] at hy
            cases hy
            omega
        cases hread : read cur (min BLOCK_SIZE (region.stop - cur)) with
        | error e => cases e <;> first | exact List.chain'_singleton _ | exact hcons
        | ok val => exact hcons
    · simp [hc]

/-- C1 (amended): in the full scan, for every region the block loop of
scan_region advances after each attempted block read by
to_read - (size - 1) bytes where size = read_size.unwrap_or(pattern.len())
is the capture size - the pattern length is used only when read_size is
unset. -/
theorem scan_region_advances_by_capture (s : Scan) (read : ReadFn) (region : MemoryRegion)
    (cur : Nat) :
    List.Chain'
      (fun p q => q = p +
        (min BLOCK_SIZE (region.stop - p) - (s.read_size.getD s.value.length - 1)))
      (scanRegionTrace s read region cur) :=
  scanRegionTraceF_chain s read region (region.stop - cur + 1) cur

/-- C1 (counterexample): with a five-byte pattern and read_size = 10, the
second block read of a two-block region happens at 65527 =
65536 - (10 - 1), not at 65536 - (pattern.len() - 1) = 65532 as the
claim states. -/
theorem scan_region_advance_need_cex :
    scanRegionTrace advScan readEmpty advRegion advRegion.start = [0, 65527, 131054]
    ∧ advScan.value.length = 5
    ∧ advScan.read_size = some 10
    ∧ 65527 ≠ 0 + (min BLOCK_SIZE (advRegion.stop - 0) - (advScan.value.length - 1)) := by
  decide

/-- C10: under the scan guard (non-empty pattern; read_size, when set, in
the range 1 to 256) the block loop of scan_region makes strict progress:
the capture size is at least one, every read position lies below the
region end with to_read = min(BLOCK_SIZE, end - p) at least the capture
size (so the advance to_read - (size - 1) never underflows and is at
least one), and the successive read positions strictly increase. -/
theorem scan_region_loop_progress (s : Scan) (read : ReadFn) (region : MemoryRegion)
    (hv : s.value ≠ []) (hrs : ∀ n, s.read_size = some n → 1 ≤ n ∧ n ≤ 256)
    (hr : region.start < region.stop) :
    1 ≤ s.read_size.getD s.value.length
    ∧ List.Chain' (· < ·) (scanRegionTrace s read region region.start)
    ∧ ∀ p ∈ scanRegionTrace s read region region.start,
        p < region.stop ∧
          s.read_size.getD s.value.length ≤ min BLOCK_SIZE (region.stop - p) := by
  refine ⟨?_, ?_, ?_⟩
  · cases hn : s.read_size with
    | none =>
      simp only [hn, Option.getD_none]
      have := List.length_pos.mpr hv
      omega
    | some n => simpa [hn] using (hrs n hn).1
  · exact scanRegionTraceF_chain_lt s read region _ _
  · exact scanRegionTraceF_mem s read region _ _

/-- C10 (witness): the loop-progress theorem applied to a concrete
one-byte pattern over the region from 0 to 100. -/
theorem scan_region_loop_progress_witness :
    stepScan.value ≠ []
    ∧ List.Chain' (· < ·) (scanRegionTrace stepScan readEmpty stepRegion stepRegion.start) :=
  ⟨by decide,
   (scan_region_loop_progress stepScan readEmpty stepRegion (by decide)
     (by intro n h; simp [stepScan, baseScan] at h) (by decide)).2.1⟩

theorem refreshEntries_fields (rs : Option Nat) (vt : ValueType) (read : ReadFn) :
    ∀ l, (refreshEntries rs vt read l).1.map (fun r => r.address) =
           l.map (fun r => r.address)
       ∧ (refreshEntries rs vt read l).1.map (fun r => r.perms) =
           l.map (fun r => r.perms) := by
  intro l
  induction l with
  | nil => exact ⟨rfl, rfl⟩
  | cons r rest ih =>
    simp only [refreshEntries]
    cases hrec : refreshEntries rs vt read rest with
    | mk rest2 e2 =>
      rw [hrec] at ih
      cases hread : read r.address (rs.getD r.value.length) with
      | error e =>
        cases e with
        | ProcessAttach c => simp
        | NoPermission c => simp [ih.1, ih.2]
        | MemRead c => simp [ih.1, ih.2]
        | MemWrite c => simp [ih.1, ih.2]
      | ok val => simp [ih.1, ih.2]

theorem refresh_watchlist_results (t : Scan) (read : ReadFn) :
    ((t.refresh_watchlist read).1).results = t.results := by
  unfold Scan.refresh_watchlist
  cases hcv : t.check_value with
  | some e => rfl
  | none =>
    cases hre : refreshEntries t.read_size t.value_type read t.watchlist with
    | mk wl e => rfl

/-- C2 (amended): for every scan state with a non-empty renderable
pattern, refresh preserves the number of entries in results and, for
every entry, its address and perms; only the value and value_type fields
may differ after the call - provided no read fails with ProcessAttach
(here: provided the call returns without error). -/
theorem refresh_preserves_structure (s : Scan) (read : ReadFn) (s' : Scan)
    (h : s.refresh read = (s', none)) :
    s'.results.length = s.results.length
    ∧ s'.results.map (fun r => r.address) = s.results.map (fun r => r.address)
    ∧ s'.results.map (fun r => r.perms) = s.results.map (fun r => r.perms) := by
  unfold Scan.refresh at h
  cases hcv : s.check_value with
  | some e => rw [hcv] at h; cases h
  | none =>
    rw [hcv] at h
    cases hre : refreshEntries s.read_size s.value_type read s.results with
    | mk res e =>
      rw [hre] at h
      cases e with
      | some me => cases h
      | none =>
        have hres : s'.results = res := by
          have h1 : ({ s with results := res }.refresh_watchlist read).1 = s' :=
            congrArg Prod.fst h
          rw [← h1, refresh_watchlist_results]
        have hf := refreshEntries_fields s.read_size s.value_type read s.results
        rw [hre] at hf
        refine ⟨?_, ?_, ?_⟩
        · have := congrArg List.length hf.1
          simpa [hres] using this
        · rw [hres]; exact hf.1
        · rw [hres]; exact hf.2

/-- C2 (counterexample): refresh also overwrites value_type with the
engine's current type - with current type I32 and an existing U32 result,
a successful refresh changes the entry's value_type, so value is not the
only field that may differ. -/
theorem refresh_changes_value_type_cex :
    (refScan.refresh readZeros).2 = none
    ∧ refScan.results.map (fun r => r.value_type) = [ValueType.U32]
    ∧ (refScan.refresh readZeros).1.results.map (fun r => r.value_type) = [ValueType.I32]
    ∧ (refScan.refresh readZeros).1.results.map (fun r => r.value_type) ≠
        refScan.results.map (fun r => r.value_type) := by
  decide

/-- C2 (witness): the structure-preservation theorem applied to the
concrete refresh state. -/
theorem refresh_preserves_structure_witness :
    (refScan.refresh readZeros).2 = none
    ∧ (refScan.refresh readZeros).1.results.length = refScan.results.length
    ∧ (refScan.refresh readZeros).1.results.map (fun r => r.address) =
        refScan.results.map (fun r => r.address) :=
  ⟨by decide,
   (refresh_preserves_structure refScan readZeros ((refScan.refresh readZeros).1)
     (by decide)).1,
   (refresh_preserves_structure refScan readZeros ((refScan.refresh readZeros).1)
     (by decide)).2.1⟩

theorem nextScanEntries_addresses (rs : Option Nat) (vt : ValueType)
    (pattern : List Nat) (read : ReadFn) :
    ∀ l out, nextScanEntries rs vt pattern read l = Except.ok out →
      ∀ x ∈ out, ∃ y ∈ l, x.address = y.address := by
  intro l
  induction l with
  | nil =>
    intro out h x hx
    simp only [nextScanEntries] at h
    cases h
    cases hx
  | cons r rest ih =>
    intro out h x hx
    simp only [nextScanEntries] at h
    split at h
    · cases h
    · obtain ⟨y, hy, hxy⟩ := ih out h x hx
      exact ⟨y, List.mem_cons_of_mem r hy, hxy⟩
    · split at h
      · split at h
        · cases h
        · rename_i more heq
          cases h
          rcases List.mem_cons.mp hx with rfl | hx2
          · exact ⟨r, List.mem_cons_self r rest, rfl⟩
          · obtain ⟨y, hy, hxy⟩ := ih more heq x hx2
            exact ⟨y, List.mem_cons_of_mem r hy, hxy⟩
      · obtain ⟨y, hy, hxy⟩ := ih out h x hx
        exact ⟨y, List.mem_cons_of_mem r hy, hxy⟩

/-- C3: next_scan is monotone - whenever it returns successfully, the
addresses of the new results form a subset of the addresses of the old
results. -/
theorem next_scan_addresses_subset (s : Scan) (read : ReadFn) (s' : Scan)
    (h : s.next_scan read = (s', none)) :
    s'.results.map (fun r => r.address) ⊆ s.results.map (fun r => r.address) := by
  unfold Scan.next_scan at h
  cases hcv : s.check_value with
  | some e => rw [hcv] at h; cases h
  | none =>
    rw [hcv] at h
    cases hns : nextScanEntries s.read_size s.value_type s.value read s.results with
    | error e => rw [hns] at h; cases h
    | ok out =>
      rw [hns] at h
      have hres : s'.results = out := by
        have h1 : ({ s with results := out }.refresh_watchlist read).1 = s' :=
          congrArg Prod.fst h
        rw [← h1, refresh_watchlist_results]
      intro a ha
      rw [hres] at ha
      obtain ⟨x, hx, hxa⟩ := List.mem_map.mp ha
      obtain ⟨y, hy, hxy⟩ := nextScanEntries_addresses s.read_size s.value_type s.value
        read s.results out hns x hx
      exact List.mem_map.mpr ⟨y, hy, by rw [← hxa, hxy]⟩

/-- C3 (witness): the monotonicity theorem applied to a concrete
narrowing scan with one surviving result. -/
theorem next_scan_addresses_subset_witness :
    (nextScanScan.next_scan readOneAtZero).2 = none
    ∧ (nextScanScan.next_scan readOneAtZero).1.results.map (fun r => r.address) ⊆
        nextScanScan.results.map (fun r => r.address) :=
  ⟨by decide,
   next_scan_addresses_subset nextScanScan readOneAtZero
     ((nextScanScan.next_scan readOneAtZero).1) (by decide)⟩

/-- C4 (amended): for every integer value type and every non-empty byte
buffer whose length differs from that type's fixed width, get_value_string
fails, surfacing as TypeMismatch through ScanResult::get_string; the
empty buffer is instead rendered as the empty string by an early return. -/
theorem get_value_string_wrong_length (t : ValueType)
    (ht : t = ValueType.U64 ∨ t = ValueType.I64 ∨ t = ValueType.U32 ∨ t = ValueType.I32)
    (v : List Nat) (hne : v ≠ []) (hlen : v.length ≠ t.get_size)
    (a : Nat) (p : List MemoryRegionPerms) :
    (ScanResult.mk a t p v).get_string = Except.error ScanError.TypeMismatch := by
  have hnone : t.get_value_string v = none := by
    rcases ht with rfl | rfl | rfl | rfl <;>
      simp only [ValueType.get_size] at hlen <;>
      simp [ValueType.get_value_string, hne, hlen]
  simp [ScanResult.get_string, hnone]

/-- C4 (counterexample): the empty buffer has length 0, different from
every fixed width, yet get_value_string succeeds with the empty string
instead of failing with TypeMismatch. -/
theorem get_value_string_empty_ok_cex :
    ValueType.U64.get_value_string [] = some ""
    ∧ (ScanResult.mk 0 ValueType.U64 [] []).get_string = Except.ok ""
    ∧ List.length ([] : List Nat) ≠ ValueType.U64.get_size := by
  decide

/-- C4 (witness): the wrong-length theorem applied to a three-byte buffer
under U64. -/
theorem get_value_string_wrong_length_witness :
    (ScanResult.mk 0 ValueType.U64 [] [1, 2, 3]).get_string =
      Except.error ScanError.TypeMismatch :=
  get_value_string_wrong_length ValueType.U64 (Or.inl rfl) [1, 2, 3] (by decide)
    (by decide) 0 []

/-- C9: with an end bound set, set_start_address on a hex string parsing
strictly above it fails with AddressMismatch and leaves the whole state
(in particular start_address and the cached region list) unchanged;
symmetrically for set_end_address below a set start bound. -/
theorem set_address_mismatch_rejected (s : Scan) (fetch : FetchFn) (hex : Str)
    (a e : Nat) (hp : Scan.parse_address_hex hex = Except.ok (some a)) :
    (s.end_address = some e → e < a →
      s.set_start_address fetch hex = (s, some ScanError.AddressMismatch))
    ∧ (s.start_address = some e → a < e →
      s.set_end_address fetch hex = (s, some ScanError.AddressMismatch)) := by
  constructor
  · intro hend hlt
    simp only [Scan.set_start_address, hp]
    rw [hend]
    simp [addrPairMismatch, hlt]
  · intro hstart hlt
    simp only [Scan.set_end_address, hp]
    rw [hstart]
    simp [addrPairMismatch, hlt]

/-- C9 (witness): starting from end = 0x1000, setting the start address to
0x2000 is rejected with AddressMismatch and the state is returned
unchanged. -/
theorem set_address_mismatch_rejected_witness :
    boundScan.set_start_address fetchNone "0x2000" =
      (boundScan, some ScanError.AddressMismatch) :=
  (set_address_mismatch_rejected boundScan fetchNone "0x2000" 0x2000 0x1000
    (by decide)).1 (by decide) (by decide)

theorem findIter_mem_le (hay needle : List Nat) (i : Nat) (hi : i ∈ findIter hay needle) :
    needle.length ≤ hay.length - i := by
  unfold findIter at hi
  obtain ⟨hrange, heq⟩ := List.mem_filter.mp hi
  have heq2 : (hay.drop i).take needle.length = needle := of_decide_eq_true heq
  have hlen := congrArg List.length heq2
  simp only [List.length_take, List.length_drop] at hlen
  omega

theorem scanRegionLoopF_value_length (s : Scan) (read : ReadFn) (region : MemoryRegion) :
    ∀ fuel cur results, scanRegionLoopF s read region fuel cur = Except.ok results →
      ∀ x ∈ results,
        min (s.read_size.getD s.value.length) s.value.length ≤ x.value.length
        ∧ x.value.length ≤ s.read_size.getD s.value.length := by
  intro fuel
  induction fuel with
  | zero =>
    intro cur results h x hx
    simp only [scanRegionLoopF] at h
    cases h
    cases hx
  | succ f ih =>
    intro cur results h x hx
    simp only [scanRegionLoopF] at h
    split at h
    · split at h
      · cases h; cases hx
      · split at h
        · cases h
        · exact ih _ _ h x hx
        · split at h
          · cases h
          · rename_i rest hrest
            cases h
            rcases List.mem_append.mp hx with hx1 | hx2
            · obtain ⟨i, hi, rfl⟩ := List.mem_map.mp hx1
              have hle := findIter_mem_le _ s.value i hi
              constructor <;>
                simp only [ScanResult.new, List.length_take, List.length_drop] <;>
                omega
            · exact ih _ _ hrest x hx2
    · cases h; cases hx

theorem scanAllRegions_value_length (s : Scan) (read : ReadFn) :
    ∀ regions results, scanAllRegions s read regions = Except.ok results →
      ∀ x ∈ results,
        min (s.read_size.getD s.value.length) s.value.length ≤ x.value.length
        ∧ x.value.length ≤ s.read_size.getD s.value.length := by
  intro regions
  induction regions with
  | nil =>
    intro results h x hx
    simp only [scanAllRegions] at h
    cases h
    cases hx
  | cons region rest ih =>
    intro results h x hx
    simp only [scanAllRegions] at h
    split at h
    · cases h
    · rename_i res hres
      split at h
      · cases h
      · rename_i more hmore
        cases h
        rcases List.mem_append.mp hx with hx1 | hx2
        · exact scanRegionLoopF_value_length s read region _ _ res hres x hx1
        · exact ih more hmore x hx2

theorem check_value_fixed_width (s : Scan) (h : s.check_value = none) :
    s.value ≠ []
    ∧ ((s.value_type = ValueType.U64 ∨ s.value_type = ValueType.I64 ∨
        s.value_type = ValueType.U32 ∨ s.value_type = ValueType.I32) →
       s.value.length = s.value_type.get_size) := by
  unfold Scan.check_value at h
  split at h
  · cases h
  · rename_i hne
    refine ⟨hne, ?_⟩
    intro ht
    split at h
    · rename_i str hsome
      rcases ht with h1 | h1 | h1 | h1 <;>
        rw [h1] at hsome ⊢ <;>
        simp only [ValueType.get_value_string, if_neg hne] at hsome <;>
        simp only [ValueType.get_size] <;>
        (split at hsome; · assumption
         · cases hsome)
    · cases h

/-- C6 (amended): after init, for every entry of results: if read_size is
unset and the current value type is fixed-width then the captured value
has length exactly the type's size, and whenever read_size = n is set
(for any value type) the captured value has length at most n. -/
theorem init_value_length_bounds (s : Scan) (read : ReadFn) (s' : Scan)
    (h : s.init read = (s', none)) :
    ∀ x ∈ s'.results,
      (s.read_size = none →
        (s.value_type = ValueType.U64 ∨ s.value_type = ValueType.I64 ∨
         s.value_type = ValueType.U32 ∨ s.value_type = ValueType.I32) →
        x.value.length = s.value_type.get_size)
      ∧ (∀ n, s.read_size = some n → x.value.length ≤ n) := by
  unfold Scan.init at h
  cases hcv : s.check_value with
  | some e => rw [hcv] at h; cases h
  | none =>
    rw [hcv] at h
    cases hall : scanAllRegions s read s.memory_regions with
    | error e => rw [hall] at h; cases h
    | ok results =>
      rw [hall] at h
      have hres : s'.results = results := by
        have h1 : ({ s with results := results }.refresh_watchlist read).1 = s' :=
          congrArg Prod.fst h
        rw [← h1, refresh_watchlist_results]
      intro x hx
      rw [hres] at hx
      have hb := scanAllRegions_value_length s read s.memory_regions results hall x hx
      have hcw := check_value_fixed_width s hcv
      constructor
      · intro hnone hint
        have hw : s.value.length = s.value_type.get_size := hcw.2 hint
        rw [hnone] at hb
        simp only [Option.getD_none] at hb
        omega
      · intro n hn
        rw [hn] at hb
        simp only [Option.getD_some] at hb
        exact hb.2

/-- C6 (counterexample): with current value type U32 (fixed-width, size 4)
but read_size = 10, init produces an entry whose value has length 10, not
the type's size. -/
theorem init_fixed_width_read_size_cex :
    (lenScan.init readOneAtZero).2 = none
    ∧ lenScan.value_type = ValueType.U32
    ∧ lenScan.read_size = some 10
    ∧ (lenScan.init readOneAtZero).1.results.map (fun r => r.value.length) = [10]
    ∧ ([10] : List Nat) ≠ [ValueType.U32.get_size] := by
  decide

/-- C6 (witness): the length-bound theorem applied to the concrete
ten-byte capture produced by init. -/
theorem init_value_length_bounds_witness :
    lenEntry ∈ (lenScan.init readOneAtZero).1.results ∧ lenEntry.value.length ≤ 10 :=
  ⟨by decide,
   (init_value_length_bounds lenScan readOneAtZero ((lenScan.init readOneAtZero).1)
     (by decide) lenEntry (by decide)).2 10 rfl⟩

/-- C7: a maps line that fails to parse before the permission field is
reached yields MemRead(0), but a line whose permission field is missing
or shorter than three characters makes the Linux parser panic on the
byte-range slice of the permission field instead of returning MemRead(0):
the evaluation below shows the crash on a two-character permission field. -/
theorem maps_line_short_perms_crash :
    parseMapsLine DEFAULT_SEARCH_PERMS 0 (2 ^ 64 - 1)
        "00400000-00452000 rw".data = LinuxParse.crash
    ∧ parseMapsLine DEFAULT_SEARCH_PERMS 0 (2 ^ 64 - 1)
        "garbage".data = LinuxParse.err (MemoryError.MemRead 0) := by
  decide

/-- C8 (amended): whenever /proc/pid/maps cannot be opened, the Linux
get_memory_regions fails with the NoPermission error kind carrying the OS
error code, for every requested range and permission filter. -/
theorem maps_open_error_no_permission (code : Int) (start stop : Option Nat)
    (perms : Option (List MemoryRegionPerms)) :
    get_memory_regions_linux (Except.error code) start stop perms =
      LinuxParse.err (MemoryError.NoPermission code) := rfl

/-- C8 (counterexample): an unopenable maps file with OS error 13
(permission denied) produces the NoPermission kind, not the ProcessAttach
kind the claim states. -/
theorem maps_open_error_not_process_attach_cex :
    get_memory_regions_linux (Except.error 13) none none none =
      LinuxParse.err (MemoryError.NoPermission 13)
    ∧ get_memory_regions_linux (Except.error 13) none none none ≠
      LinuxParse.err (MemoryError.ProcessAttach 13) := by
  decide

theorem natToDigitList_ne_nil (n : Nat) : natToDigitList n ≠ [] := by
  rw [natToDigitList_eq]
  by_cases h : n < 10 <;> simp [h]

theorem natToDigitList_digit_lt (n : Nat) : ∀ d ∈ natToDigitList n, d < 10 := by
  induction n using Nat.strong_induction_on with
  | _ n ih =>
    rw [natToDigitList_eq]
    by_cases h : n < 10
    · simp [h]
    · rw [if_neg h]
      intro d hd
      rcases List.mem_append.mp hd with hd1 | hd2
      · exact ih (n / 10) (by omega) d hd1
      · simp only [List.mem_singleton] at hd2
        omega

theorem digitChar_toNat (d : Nat) (h : d < 10) : (digitChar d).toNat = 48 + d := by
  interval_cases d <;> decide

theorem decDigitVal_digitChar (d : Nat) (h : d < 10) :
    decDigitVal? (digitChar d) = some d := by
  unfold decDigitVal?
  rw [digitChar_toNat d h, if_pos (by omega)]
  congr 1
  omega

theorem digitChar_ne_plus (d : Nat) (h : d < 10) : digitChar d ≠ '+' := by
  intro hc
  have := digitChar_toNat d h
  rw [hc] at this
  simp at this
  omega

theorem digitChar_ne_minus (d : Nat) (h : d < 10) : digitChar d ≠ '-' := by
  intro hc
  have := digitChar_toNat d h
  rw [hc] at this
  simp at this
  omega

theorem parseDecDigitsAux_digits :
    ∀ (ds : List Nat) (acc : Nat), (∀ d ∈ ds, d < 10) →
      parseDecDigitsAux acc (ds.map digitChar) =
        some (ds.foldl (fun a d => a * 10 + d) acc) := by
  intro ds
  induction ds with
  | nil => intro acc _; rfl
  | cons d rest ih =>
    intro acc hd
    simp only [List.map_cons, parseDecDigitsAux,
      decDigitVal_digitChar d (hd d (List.mem_cons_self d rest))]
    exact ih (acc * 10 + d) (fun x hx => hd x (List.mem_cons_of_mem d hx))

theorem natToDigitList_foldl (n : Nat) :
    ∀ acc : Nat, (natToDigitList n).foldl (fun a d => a * 10 + d) acc =
      acc * 10 ^ (natToDigitList n).length + n := by
  induction n using Nat.strong_induction_on with
  | _ n ih =>
    intro acc
    rw [natToDigitList_eq]
    by_cases h : n < 10
    · simp [h]
    · rw [if_neg h, List.foldl_append, ih (n / 10) (by omega) acc]
      simp only [List.foldl_cons, List.foldl_nil, List.length_append,
        List.length_singleton]
      rw [pow_succ]
      have := Nat.div_add_mod n 10
      ring_nf
      omega

theorem parseDecDigits_natToDigitList (n : Nat) :
    parseDecDigits ((natToDigitList n).map digitChar) = some n := by
  unfold parseDecDigits
  obtain ⟨d, ds, hds⟩ : ∃ d ds, natToDigitList n = d :: ds := by
    cases hl : natToDigitList n with
    | nil => exact absurd hl (natToDigitList_ne_nil n)
    | cons d ds => exact ⟨d, ds, rfl⟩
  rw [hds]
  simp only [List.map_cons, List.isEmpty_cons, Bool.false_eq_true, if_false]
  have hall : ∀ x ∈ d :: ds, x < 10 := by rw [← hds]; exact natToDigitList_digit_lt n
  have := parseDecDigitsAux_digits (d :: ds) 0 hall
  simp only [List.map_cons] at this
  rw [this]
  have hfold := natToDigitList_foldl n 0
  rw [hds] at hfold
  simp only [hfold, Nat.zero_mul, Nat.zero_add]

theorem natToDigitList_cons (n : Nat) :
    ∃ d ds, natToDigitList n = d :: ds ∧ d < 10 := by
  cases hl : natToDigitList n with
  | nil => exact absurd hl (natToDigitList_ne_nil n)
  | cons d ds =>
    refine ⟨d, ds, rfl, ?_⟩
    exact natToDigitList_digit_lt n d (by rw [hl]; exact List.mem_cons_self d ds)

theorem natToString_data_cons (n : Nat) :
    ∀ d ds, natToDigitList n = d :: ds →
      (natToString n).data = digitChar d :: ds.map digitChar := by
  intro d ds hds
  show (natToDigitList n).map digitChar = _
  rw [hds]
  rfl

theorem parseUnsigned_natToString (bound n : Nat) (h : n ≤ bound) :
    parseUnsigned bound (natToString n).data = some n := by
  obtain ⟨d, ds, hds, hd⟩ := natToDigitList_cons n
  rw [parseUnsigned, natToString_data_cons n d ds hds]
  have hstrip : stripPlus (digitChar d :: ds.map digitChar) =
      digitChar d :: ds.map digitChar := by
    simp only [stripPlus]
    rw [if_neg (digitChar_ne_plus d hd)]
  rw [hstrip,
    show digitChar d :: ds.map digitChar = (natToDigitList n).map digitChar from by
      rw [hds]; rfl,
    parseDecDigits_natToDigitList]
  simp [h]

theorem parseIntStr_natToString (negB posB n : Nat) (h : n ≤ posB) :
    parseIntStr negB posB (natToString n).data = some ((n : Int)) := by
  obtain ⟨d, ds, hds, hd⟩ := natToDigitList_cons n
  rw [natToString_data_cons n d ds hds]
  simp only [parseIntStr]
  rw [if_neg (digitChar_ne_minus d hd), if_neg (digitChar_ne_plus d hd),
    show digitChar d :: ds.map digitChar = (natToDigitList n).map digitChar from by
      rw [hds]; rfl,
    parseDecDigits_natToDigitList]
  simp [h]

theorem parseIntStr_negString (negB posB m : Nat) (hm : m ≤ negB) :
    parseIntStr negB posB ('-' :: (natToDigitList m).map digitChar) =
      some (-(m : Int)) := by
  simp only [parseIntStr]
  rw [if_pos trivial, parseDecDigits_natToDigitList]
  simp [hm]

theorem intToString_nonneg (v : Int) (h : 0 ≤ v) :
    intToString v = natToString v.toNat := by
  unfold intToString
  rw [if_neg (not_lt.mpr h)]

theorem intToString_neg_data (v : Int) (h : v < 0) :
    (intToString v).data = '-' :: (natToDigitList (-v).toNat).map digitChar := by
  unfold intToString
  rw [if_pos h]

theorem toLeBytes_length : ∀ (w v : Nat), (toLeBytes w v).length = w := by
  intro w
  induction w with
  | zero => intro v; rfl
  | succ w ih => intro v; simp [toLeBytes, ih]

theorem toLeBytes_fromLeBytes :
    ∀ (l : List Nat) (w : Nat), l.length = w → (∀ b ∈ l, b < 256) →
      toLeBytes w (fromLeBytes l) = l := by
  intro l
  induction l with
  | nil =>
    intro w hw _
    subst hw
    rfl
  | cons b rest ih =>
    intro w hw hb
    subst hw
    simp only [List.length_cons, toLeBytes, fromLeBytes]
    have hblt : b < 256 := hb b (List.mem_cons_self b rest)
    have hmod : (b + 256 * fromLeBytes rest) % 256 = b := by omega
    have hdiv : (b + 256 * fromLeBytes rest) / 256 = fromLeBytes rest := by omega
    rw [hmod, hdiv, ih rest.length rfl (fun x hx => hb x (List.mem_cons_of_mem b hx))]

theorem fromLeBytes_toLeBytes :
    ∀ (w v : Nat), v < 256 ^ w → fromLeBytes (toLeBytes w v) = v := by
  intro w
  induction w with
  | zero =>
    intro v hv
    simp only [pow_zero, Nat.lt_one_iff] at hv
    subst hv
    rfl
  | succ w ih =>
    intro v hv
    simp only [toLeBytes, fromLeBytes]
    have hdivlt : v / 256 < 256 ^ w := by
      rw [Nat.div_lt_iff_lt_mul (by norm_num : 0 < 256)]
      rw [pow_succ] at hv
      exact hv
    rw [ih (v / 256) hdivlt]
    omega

theorem fromLeBytes_lt :
    ∀ l : List Nat, (∀ b ∈ l, b < 256) → fromLeBytes l < 256 ^ l.length := by
  intro l
  induction l with
  | nil => intro _; decide
  | cons b rest ih =>
    intro hb
    simp only [fromLeBytes, List.length_cons, pow_succ]
    have h1 := ih (fun x hx => hb x (List.mem_cons_of_mem b hx))
    have h2 := hb b (List.mem_cons_self b rest)
    nlinarith

theorem pow256_eq (w : Nat) : (256 : Nat) ^ w = 2 ^ (8 * w) := by
  rw [show (256 : Nat) = 2 ^ 8 from rfl, ← pow_mul]

theorem unsigned_render_parse (w : Nat) (bytes : List Nat) (hlen : bytes.length = w)
    (hb : ∀ b ∈ bytes, b < 256) :
    parseUnsigned (2 ^ (8 * w) - 1) (natToString (fromLeBytes bytes)).data =
      some (fromLeBytes bytes)
    ∧ toLeBytes w (fromLeBytes bytes) = bytes := by
  have hlt : fromLeBytes bytes < 2 ^ (8 * w) := by
    have h1 := fromLeBytes_lt bytes hb
    rw [hlen, pow256_eq] at h1
    exact h1
  exact ⟨parseUnsigned_natToString _ _ (by omega),
    toLeBytes_fromLeBytes bytes w hlen hb⟩

theorem unsigned_parse_render (w v : Nat) (hv : v < 2 ^ (8 * w)) :
    parseUnsigned (2 ^ (8 * w) - 1) (natToString v).data = some v
    ∧ fromLeBytes (toLeBytes w v) = v := by
  refine ⟨parseUnsigned_natToString _ _ (by omega), ?_⟩
  apply fromLeBytes_toLeBytes
  rw [pow256_eq]
  exact hv

theorem signed_render_parse (w : Nat) (hw : 1 ≤ w) (bytes : List Nat)
    (hlen : bytes.length = w) (hb : ∀ b ∈ bytes, b < 256) :
    parseIntStr (2 ^ (8 * w - 1)) (2 ^ (8 * w - 1) - 1)
        (intToString (toSigned (8 * w) (fromLeBytes bytes))).data =
      some (toSigned (8 * w) (fromLeBytes bytes))
    ∧ (toSigned (8 * w) (fromLeBytes bytes) % ((2 : Int) ^ (8 * w))).toNat =
      fromLeBytes bytes := by
  have hult : fromLeBytes bytes < 2 ^ (8 * w) := by
    have h1 := fromLeBytes_lt bytes hb
    rw [hlen, pow256_eq] at h1
    exact h1
  have hpow : (2 : Nat) ^ (8 * w) = 2 * 2 ^ (8 * w - 1) := by
    rw [← pow_succ']
    congr 1
    omega
  have hcast : (((2 : Nat) ^ (8 * w) : Nat) : Int) = (2 : Int) ^ (8 * w) := by
    push_cast
    ring
  have hcast2 : (((2 : Nat) ^ (8 * w - 1) : Nat) : Int) = (2 : Int) ^ (8 * w - 1) := by
    push_cast
    ring
  by_cases hcase : fromLeBytes bytes < 2 ^ (8 * w - 1)
  · simp only [toSigned, show 8 * w - 1 = 8 * w - 1 from rfl, if_pos hcase]
    constructor
    · rw [intToString_nonneg _ (by positivity), Int.toNat_natCast]
      rw [parseIntStr_natToString _ _ _ (by omega)]
    · rw [Int.emod_eq_of_lt (by positivity) (by omega), Int.toNat_natCast]
  · simp only [toSigned, if_neg hcase]
    have hneg : ((fromLeBytes bytes : Int)) - 2 ^ (8 * w) < 0 := by omega
    constructor
    · rw [intToString_neg_data _ hneg]
      have habs : (-(((fromLeBytes bytes : Int)) - 2 ^ (8 * w))).toNat =
          2 ^ (8 * w) - fromLeBytes bytes := by omega
      rw [habs, parseIntStr_negString _ _ _ (by omega)]
      congr 1
      omega
    · rw [Int.emod_sub_cancel, Int.emod_eq_of_lt (by positivity) (by omega),
        Int.toNat_natCast]

theorem signed_parse_render (w : Nat) (hw : 1 ≤ w) (v : Int)
    (h1 : -(2 ^ (8 * w - 1)) ≤ v) (h2 : v ≤ 2 ^ (8 * w - 1) - 1) :
    parseIntStr (2 ^ (8 * w - 1)) (2 ^ (8 * w - 1) - 1) (intToString v).data = some v
    ∧ toSigned (8 * w) ((v % ((2 : Int) ^ (8 * w))).toNat) = v
    ∧ (v % ((2 : Int) ^ (8 * w))).toNat < 2 ^ (8 * w) := by
  have hpow : (2 : Nat) ^ (8 * w) = 2 * 2 ^ (8 * w - 1) := by
    rw [← pow_succ']
    congr 1
    omega
  have hcast : (((2 : Nat) ^ (8 * w) : Nat) : Int) = (2 : Int) ^ (8 * w) := by
    push_cast
    ring
  have hcast2 : (((2 : Nat) ^ (8 * w - 1) : Nat) : Int) = (2 : Int) ^ (8 * w - 1) := by
    push_cast
    ring
  by_cases hv : 0 ≤ v
  · have hemod : v % ((2 : Int) ^ (8 * w)) = v := Int.emod_eq_of_lt hv (by omega)
    refine ⟨?_, ?_, ?_⟩
    · rw [intToString_nonneg v hv, parseIntStr_natToString _ _ _ (by omega),
        Int.toNat_of_nonneg hv]
    · rw [hemod]
      simp only [toSigned]
      rw [if_pos (by omega), Int.toNat_of_nonneg hv]
    · rw [hemod]
      omega
  · push_neg at hv
    have h0 : 0 ≤ v + (2 : Int) ^ (8 * w) := by omega
    have hemod : v % ((2 : Int) ^ (8 * w)) = v + 2 ^ (8 * w) := by
      conv_lhs => rw [show v = (v + (2 : Int) ^ (8 * w)) - 2 ^ (8 * w) from by ring]
      rw [Int.emod_sub_cancel, Int.emod_eq_of_lt h0 (by omega)]
    refine ⟨?_, ?_, ?_⟩
    · rw [intToString_neg_data v hv, parseIntStr_negString _ _ _ (by omega)]
      congr 1
      omega
    · rw [hemod]
      simp only [toSigned]
      rw [if_neg (by omega)]
      omega
    · rw [hemod]
      omega

/-- C5 (amended): codec round-trip for each integer type: for every byte
buffer of exactly the type's width, parsing the rendered decimal string
yields the original bytes; and for every in-range decimal string in
canonical form (the decimal rendering of an in-range value), rendering
the parsed little-endian bytes yields the string back. Non-canonical
in-range strings (leading zeros, a leading plus, minus zero) re-render
to the canonical form instead. -/
theorem integer_codec_roundtrip (t : ValueType)
    (ht : t = ValueType.U64 ∨ t = ValueType.I64 ∨ t = ValueType.U32 ∨ t = ValueType.I32)
    (s : Scan) (hs : s.value_type = t) :
    (∀ bytes : List Nat, bytes.length = t.get_size → (∀ b ∈ bytes, b < 256) →
      (t.get_value_string bytes).bind s.value_from_str = some bytes)
    ∧ (∀ v : Int, typeMinInt t ≤ v → v ≤ typeMaxInt t →
      (s.value_from_str (intToString v)).bind t.get_value_string =
        some (intToString v)) := by
  have e64 : (8 : Nat) * 8 - 1 = 63 := by norm_num
  have e64b : (8 : Nat) * 8 = 64 := by norm_num
  have e32 : (8 : Nat) * 4 - 1 = 31 := by norm_num
  have e32b : (8 : Nat) * 4 = 32 := by norm_num
  rcases ht with rfl | rfl | rfl | rfl
  · -- U64
    constructor
    · intro bytes hlen hb
      simp only [ValueType.get_size] at hlen
      have hne : bytes ≠ [] := by intro h; rw [h] at hlen; simp at hlen
      have h := unsigned_render_parse 8 bytes hlen hb
      rw [e64b] at h
      simp only [ValueType.get_value_string, if_neg hne, if_pos hlen, Option.some_bind]
      simp only [Scan.value_from_str, hs]
      rw [h.1, Option.map_some', h.2]
    · intro v hmin hmax
      simp only [typeMinInt] at hmin
      simp only [typeMaxInt] at hmax
      have hvt : v.toNat < 2 ^ (8 * 8) := by rw [e64b]; omega
      have h := unsigned_parse_render 8 v.toNat hvt
      rw [e64b] at h
      have hlen8 : (toLeBytes 8 v.toNat).length = 8 := toLeBytes_length 8 _
      have hne : toLeBytes 8 v.toNat ≠ [] := by
        intro hx; rw [hx] at hlen8; simp at hlen8
      rw [intToString_nonneg v hmin]
      simp only [Scan.value_from_str, hs]
      rw [h.1, Option.map_some', Option.some_bind]
      simp only [ValueType.get_value_string, if_neg hne, if_pos hlen8]
      rw [h.2]
  · -- I64
    constructor
    · intro bytes hlen hb
      simp only [ValueType.get_size] at hlen
      have hne : bytes ≠ [] := by intro h; rw [h] at hlen; simp at hlen
      have h := signed_render_parse 8 (by norm_num) bytes hlen hb
      rw [e64, e64b] at h
      have h2 := toLeBytes_fromLeBytes bytes 8 hlen hb
      simp only [ValueType.get_value_string, if_neg hne, if_pos hlen, Option.some_bind]
      simp only [Scan.value_from_str, hs]
      rw [h.1, Option.map_some', h.2, h2]
    · intro v hmin hmax
      simp only [typeMinInt] at hmin
      simp only [typeMaxInt] at hmax
      have h := signed_parse_render 8 (by norm_num) v
        (by rw [e64]; exact hmin) (by rw [e64]; exact hmax)
      rw [e64, e64b] at h
      have hlen8 : (toLeBytes 8 (v % ((2 : Int) ^ 64)).toNat).length = 8 :=
        toLeBytes_length 8 _
      have hne : toLeBytes 8 (v % ((2 : Int) ^ 64)).toNat ≠ [] := by
        intro hx; rw [hx] at hlen8; simp at hlen8
      have hfl : fromLeBytes (toLeBytes 8 (v % ((2 : Int) ^ 64)).toNat) =
          (v % ((2 : Int) ^ 64)).toNat := by
        apply fromLeBytes_toLeBytes
        rw [show (256 : Nat) ^ 8 = 2 ^ 64 from by norm_num]
        exact h.2.2
      simp only [Scan.value_from_str, hs]
      rw [h.1, Option.map_some', Option.some_bind]
      simp only [ValueType.get_value_string, if_neg hne, if_pos hlen8]
      rw [hfl, h.2.1]
  · -- U32
    constructor
    · intro bytes hlen hb
      simp only [ValueType.get_size] at hlen
      have hne : bytes ≠ [] := by intro h; rw [h] at hlen; simp at hlen
      have h := unsigned_render_parse 4 bytes hlen hb
      rw [e32b] at h
      simp only [ValueType.get_value_string, if_neg hne, if_pos hlen, Option.some_bind]
      simp only [Scan.value_from_str, hs]
      rw [h.1, Option.map_some', h.2]
    · intro v hmin hmax
      simp only [typeMinInt] at hmin
      simp only [typeMaxInt] at hmax
      have hvt : v.toNat < 2 ^ (8 * 4) := by rw [e32b]; omega
      have h := unsigned_parse_render 4 v.toNat hvt
      rw [e32b] at h
      have hlen4 : (toLeBytes 4 v.toNat).length = 4 := toLeBytes_length 4 _
      have hne : toLeBytes 4 v.toNat ≠ [] := by
        intro hx; rw [hx] at hlen4; simp at hlen4
      rw [intToString_nonneg v hmin]
      simp only [Scan.value_from_str, hs]
      rw [h.1, Option.map_some', Option.some_bind]
      simp only [ValueType.get_value_string, if_neg hne, if_pos hlen4]
      rw [h.2]
  · -- I32
    constructor
    · intro bytes hlen hb
      simp only [ValueType.get_size] at hlen
      have hne : bytes ≠ [] := by intro h; rw [h] at hlen; simp at hlen
      have h := signed_render_parse 4 (by norm_num) bytes hlen hb
      rw [e32, e32b] at h
      have h2 := toLeBytes_fromLeBytes bytes 4 hlen hb
      simp only [ValueType.get_value_string, if_neg hne, if_pos hlen, Option.some_bind]
      simp only [Scan.value_from_str, hs]
      rw [h.1, Option.map_some', h.2, h2]
    · intro v hmin hmax
      simp only [typeMinInt] at hmin
      simp only [typeMaxInt] at hmax
      have h := signed_parse_render 4 (by norm_num) v
        (by rw [e32]; exact hmin) (by rw [e32]; exact hmax)
      rw [e32, e32b] at h
      have hlen4 : (toLeBytes 4 (v % ((2 : Int) ^ 32)).toNat).length = 4 :=
        toLeBytes_length 4 _
      have hne : toLeBytes 4 (v % ((2 : Int) ^ 32)).toNat ≠ [] := by
        intro hx; rw [hx] at hlen4; simp at hlen4
      have hfl : fromLeBytes (toLeBytes 4 (v % ((2 : Int) ^ 32)).toNat) =
          (v % ((2 : Int) ^ 32)).toNat := by
        apply fromLeBytes_toLeBytes
        rw [show (256 : Nat) ^ 4 = 2 ^ 32 from by norm_num]
        exact h.2.2
      simp only [Scan.value_from_str, hs]
      rw [h.1, Option.map_some', Option.some_bind]
      simp only [ValueType.get_value_string, if_neg hne, if_pos hlen4]
      rw [hfl, h.2.1]

/-- C5 (counterexample): the in-range decimal string 007 parses under U32
to the bytes of 7, but rendering those bytes gives 7, not 007 - so
render(parse(s)) = s fails for in-range strings that are not canonical. -/
theorem integer_roundtrip_leading_zero_cex :
    u32Scan.value_type = ValueType.U32
    ∧ u32Scan.value_from_str "007" = some [7, 0, 0, 0]
    ∧ (u32Scan.value_from_str "007").bind ValueType.U32.get_value_string = some "7"
    ∧ ("7" : Str) ≠ "007" := by
  decide

/-- C5 (witness): the round-trip theorem applied under U32 to the
four-byte buffer of 263 and to the canonical rendering of 300. -/
theorem integer_codec_roundtrip_witness :
    (ValueType.U32.get_value_string [7, 1, 0, 0]).bind u32Scan.value_from_str =
      some [7, 1, 0, 0]
    ∧ (u32Scan.value_from_str (intToString 300)).bind ValueType.U32.get_value_string =
      some (intToString 300) :=
  ⟨(integer_codec_roundtrip ValueType.U32 (Or.inr (Or.inr (Or.inl rfl))) u32Scan rfl).1
    [7, 1, 0, 0] (by decide) (by decide),
   (integer_codec_roundtrip ValueType.U32 (Or.inr (Or.inr (Or.inl rfl))) u32Scan rfl).2
    300 (by decide) (by decide)⟩
